import Mathlib

/-!
Shallow embedding of the `algorithms_exercise` repository (Rust):
`src/heap.rs` (array-backed binary heap with min/max ordering policy),
`src/binary_search.rs` (index-based binary search over a sorted slice),
`src/traits.rs` (`Randomizable for Vec<T>`: random element selection).

Machine integers (`usize`) are modelled as `Nat` with explicit `% 2^64`
where Rust's wrapping arithmetic matters.  Rust operations that can panic
(slice indexing, `Vec::swap`) are modelled as `Option`/`Except`-returning
functions, with `none`/`.error` marking a panic.
-/

namespace AlgorithmsExercise

/-- Embeds `enum ParentChildRelation { Greater, Smaller }` from `heap.rs`. -/
inductive ParentChildRelation where
  | Greater : ParentChildRelation
  | Smaller : ParentChildRelation
deriving DecidableEq, Repr

/-- Embeds `ParentChildRelation::rel`: `Smaller => parent <= child`,
`Greater => parent >= child`. -/
def ParentChildRelation.rel {α : Type*} [LinearOrder α]
    (r : ParentChildRelation) (parent child : α) : Bool :=
  match r with
  | .Smaller => decide (parent ≤ child)
  | .Greater => decide (parent ≥ child)

/-- Embeds `fn parent_of`: `child_index.checked_sub(1).unwrap_or_default() / 2`
(`Nat` subtraction already yields `0` at `0`, matching `checked_sub`+default). -/
def parent_of (child_index : Nat) : Nat :=
  (child_index - 1) / 2

/-- Embeds `fn left_child_of`: `parent_index * 2 + 1`. -/
def left_child_of (parent_index : Nat) : Nat :=
  parent_index * 2 + 1

/-- Embeds `fn right_child_of`: `parent_index * 2 + 2`. -/
def right_child_of (parent_index : Nat) : Nat :=
  parent_index * 2 + 2

/-- Embeds `struct Heap<T> { elements: Vec<T>, size: usize,
parent_child_relation: ParentChildRelation }`. -/
structure Heap (α : Type*) where
  elements : List α
  size : Nat
  parent_child_relation : ParentChildRelation
deriving Repr

variable {α : Type*} [LinearOrder α]

/-- Embeds `Vec::swap(i, j)`: panics (`none`) when an index is out of
bounds, otherwise exchanges the two slots. -/
def swapIdx (l : List α) (i j : Nat) : Option (List α) :=
  match l[i]?, l[j]? with
  | some a, some b => some ((l.set i b).set j a)
  | _, _ => none

/-- Embeds `Heap::heap_property_satisfied` as a function of the relation and
the buffer: `rel(&elements[parent_index], &elements[child_index])`; `none`
models the panic of an out-of-bounds index. -/
def heap_property_satisfied (r : ParentChildRelation) (l : List α)
    (parent_index child_index : Nat) : Option Bool :=
  match l[parent_index]?, l[child_index]? with
  | some p, some c => some (r.rel p c)
  | _, _ => none

/-- Embeds the loop of `Heap::shift_up`, starting at `current_child`
(the call site passes `self.size`, the index of the just-placed element). -/
def shift_up_loop (r : ParentChildRelation) (l : List α)
    (current_child : Nat) : Option (List α) :=
  match heap_property_satisfied r l (parent_of current_child) current_child with
  | none => none
  | some true => some l
  | some false =>
    match swapIdx l (parent_of current_child) current_child with
    | none => none
    | some l2 =>
      if _h : parent_of current_child = 0 then some l2
      else shift_up_loop r l2 (parent_of current_child)
termination_by current_child
decreasing_by
  simp only [parent_of] at *
  omega

/-- Embeds the child-selection step inside `Heap::shift_down`: with two
children in the live region, pick the left child when it satisfies the
relation against the right one, otherwise the right child; with only a left
child, pick it. -/
def shift_down_choose (r : ParentChildRelation) (l : List α)
    (size current_parent : Nat) : Option Nat :=
  if right_child_of current_parent < size then
    match heap_property_satisfied r l (left_child_of current_parent)
        (right_child_of current_parent) with
    | none => none
    | some b =>
      some (if b then left_child_of current_parent
            else right_child_of current_parent)
  else some (left_child_of current_parent)

/-- Embeds the loop of `Heap::shift_down`, starting at `current_parent`
(the call site passes `0`). -/
def shift_down_loop (r : ParentChildRelation) (l : List α)
    (size current_parent : Nat) : Option (List α) :=
  if _h1 : size ≤ left_child_of current_parent then some l
  else
    match _hc : shift_down_choose r l size current_parent with
    | none => none
    | some current_child =>
      match heap_property_satisfied r l current_parent current_child with
      | none => none
      | some true => some l
      | some false =>
        match swapIdx l current_parent current_child with
        | none => none
        | some l2 => shift_down_loop r l2 size current_child
termination_by size - current_parent
decreasing_by
  have hb : current_parent < current_child ∧ current_child < size := by
    unfold shift_down_choose at _hc
    by_cases h2 : right_child_of current_parent < size
    · rw [if_pos h2] at _hc
      cases hh : heap_property_satisfied r l (left_child_of current_parent)
          (right_child_of current_parent) with
      | none => rw [hh] at _hc; cases _hc
      | some b =>
        rw [hh] at _hc
        have h3 := Option.some.inj _hc
        cases b with
        | true =>
          simp only [if_true] at h3
          rw [← h3]
          simp only [left_child_of] at _h1 ⊢
          omega
        | false =>
          simp only [Bool.false_eq_true, if_false] at h3
          rw [← h3]
          simp only [left_child_of, right_child_of] at h2 ⊢
          omega
    · rw [if_neg h2] at _hc
      have h3 := Option.some.inj _hc
      rw [← h3]
      simp only [left_child_of] at _h1 ⊢
      omega
  omega

/-- Embeds `Heap::new` (the `Vec::with_capacity` hint has no semantic
content beyond allocation, so the buffer starts empty). -/
def Heap.new (capacity : Nat) (r : ParentChildRelation) : Heap α :=
  { elements := [], size := 0, parent_child_relation := r }

/-- Embeds `Heap::new_min(capacity)`. -/
def Heap.new_min (capacity : Nat) : Heap α :=
  Heap.new capacity .Smaller

/-- Embeds `Heap::new_max(capacity)`. -/
def Heap.new_max (capacity : Nat) : Heap α :=
  Heap.new capacity .Greater

/-- Embeds `Heap::find_top`: `self.elements.first()` (note: the buffer's
first slot, not guarded by `size`). -/
def Heap.find_top (h : Heap α) : Option α :=
  h.elements.head?

/-- Embeds `Heap::shift_up` (mutates only `elements`). -/
def Heap.shift_up (h : Heap α) : Option (Heap α) :=
  (shift_up_loop h.parent_child_relation h.elements h.size).map
    (fun l => { h with elements := l })

/-- Embeds `Heap::shift_down` (mutates only `elements`). -/
def Heap.shift_down (h : Heap α) : Option (Heap α) :=
  (shift_down_loop h.parent_child_relation h.elements h.size 0).map
    (fun l => { h with elements := l })

/-- Embeds `Heap::insert`: place the value at index `size` (append when the
buffer is full, otherwise overwrite the stale slot; `none` models the panic
of `self.elements[self.size] = new_t` when `size > len`), sift up when the
heap was non-empty, then increment `size`. -/
def Heap.insert (h : Heap α) (new_t : α) : Option (Heap α) :=
  match (if h.size = h.elements.length then some (h.elements ++ [new_t])
         else if h.size < h.elements.length
         then some (h.elements.set h.size new_t) else none) with
  | none => none
  | some es =>
    let h1 : Heap α := { h with elements := es }
    match (if 0 < h.size then h1.shift_up else some h1) with
    | none => none
    | some h2 => some { h2 with size := h2.size + 1 }

/-- Embeds `Heap::insert_all`: insert each value in iteration order. -/
def Heap.insert_all (h : Heap α) (slice : List α) : Option (Heap α) :=
  match slice with
  | [] => some h
  | v :: rest =>
    match h.insert v with
    | none => none
    | some h2 => h2.insert_all rest

/-- Embeds `Heap::extract_top`: `None` result on `size == 0`; otherwise save
the top, decrement `size`, and when elements remain swap the last live
element to the root and sift down.  The outer `Option` models panics. -/
def Heap.extract_top (h : Heap α) : Option (Option α × Heap α) :=
  if h.size = 0 then some (none, h)
  else
    let result := h.find_top
    let h1 : Heap α := { h with size := h.size - 1 }
    if 0 < h1.size then
      match swapIdx h1.elements 0 h1.size with
      | none => none
      | some l2 =>
        match shift_down_loop h1.parent_child_relation l2 h1.size 0 with
        | none => none
        | some l3 => some (result, { h1 with elements := l3 })
    else some (result, h1)

/-- Embeds `Heap::iter`: `self.elements.iter().take(self.size)`. -/
def Heap.iter (h : Heap α) : List α :=
  h.elements.take h.size

/-- Embeds `Heap::occurrence_of` (from the test support code in `heap.rs`):
count equal elements over the live region. -/
def Heap.occurrence_of (h : Heap α) (item : Option α) : Nat :=
  match item with
  | none => 0
  | some item => (h.iter.filter (fun i => i = item)).length

/-! Embedding of `src/binary_search.rs`.  `usize` arithmetic wraps modulo
`2^64` (release-profile semantics; the debug profile panics at the same
inputs, at the subtraction instead of at the subsequent indexing). -/

/-- Word size of `usize` in the embedding. -/
def USIZE : Nat := 2 ^ 64

/-- Embeds the `while lo <= hi` loop of `binary_search`.  The fuel
parameter only drives the recursion; `130` iterations exceed what any run
over a `Vec` (whose length is below `2^63`) can take before returning or
panicking.  `.error` models a panic from out-of-bounds indexing. -/
def binary_search_loop (slice : List α) (value : α) :
    Nat → Nat → Nat → Except String (Option Nat)
  | 0, _, _ => .error "fuel exhausted"
  | fuel + 1, lo, hi =>
    if lo ≤ hi then
      let mid := ((lo + hi) % USIZE) / 2
      match slice[mid]? with
      | none => .error "index out of bounds"
      | some focused =>
        if focused = value then .ok (some mid)
        else if focused < value then
          binary_search_loop slice value fuel ((mid + 1) % USIZE) hi
        else
          binary_search_loop slice value fuel lo ((mid + USIZE - 1) % USIZE)
    else .ok none

/-- Embeds `fn binary_search`: `lo = 0`, `hi = slice.len() - 1` (a `usize`
subtraction, wrapping to `2^64 - 1` on an empty slice). -/
def binary_search (slice : List α) (value : α) : Except String (Option Nat) :=
  binary_search_loop slice value 130 0 ((slice.length + USIZE - 1) % USIZE)

/-! Embedding of `src/traits.rs`. -/

/-- Embeds `<Vec<T> as Randomizable<T>>::get_random`.  The call
`rand::random::<usize>()` is modelled by the explicit parameter `r`, a
uniformly distributed 64-bit value; the source then indexes at
`r % self.len()`. -/
def get_random (v : List α) (r : Nat) : Option α :=
  if v.isEmpty then none
  else v[r % v.length]?

/-- Number of 64-bit generator outcomes that make `get_random` select index
`i` out of `len` candidates: the claim of a uniform choice says these counts
agree for all indices below `len`. -/
def selectionCount (len i : Nat) : Nat :=
  ((Finset.range USIZE).filter (fun r => r % len = i)).card

/-- Number of 64-bit generator outcomes on which `get_random v` returns the
value `x`; a uniform choice over the candidates means these counts agree
across the elements of a duplicate-free `v`. -/
def outcomeCount (v : List α) (x : α) : Nat :=
  ((Finset.range USIZE).filter (fun r => get_random v r = some x)).card

/-! Specification-side predicates about the heap (the heap property, the
loop invariants of the two repair routines, and reachability by the public
API), used to state and prove the claims. -/

/-- Index `c` is a child slot of index `i` in the implicit binary tree. -/
def isChildOf (c i : Nat) : Prop :=
  c = left_child_of i ∨ c = right_child_of i

/-- The element at slot `i` satisfies the configured relation against the
element at slot `c` (vacuous when either index is out of bounds). -/
def dominatesAt (r : ParentChildRelation) (l : List α) (i c : Nat) : Prop :=
  ∀ p ∈ l[i]?, ∀ q ∈ l[c]?, r.rel p q = true

/-- The heap property over the first `n` slots of the buffer: every parent
dominates each of its children that lies below `n`. -/
def IsHeapUpto (r : ParentChildRelation) (l : List α) (n : Nat) : Prop :=
  ∀ i c, isChildOf c i → c < n → dominatesAt r l i c

/-- Loop invariant of `shift_up`: the heap property may fail only on the
edge into the moving slot `j`, and the parent of `j` dominates the children
of `j`. -/
def UpInv (r : ParentChildRelation) (l : List α) (n j : Nat) : Prop :=
  (∀ i c, isChildOf c i → c < n → c ≠ j → dominatesAt r l i c) ∧
  (∀ c, isChildOf c j → c < n → dominatesAt r l (parent_of j) c)

/-- Loop invariant of `shift_down`: the heap property may fail only on the
edges out of the moving slot `j`, and (when `j` is not the root) the parent
of `j` dominates the children of `j`. -/
def DownInv (r : ParentChildRelation) (l : List α) (n j : Nat) : Prop :=
  (∀ i c, isChildOf c i → c < n → i ≠ j → dominatesAt r l i c) ∧
  (j ≠ 0 → ∀ c, isChildOf c j → c < n → dominatesAt r l (parent_of j) c)

/-- Well-formedness plus the heap property over the live region: the
invariant every publicly reachable heap satisfies. -/
def Heap.Inv (h : Heap α) : Prop :=
  h.size ≤ h.elements.length ∧
    IsHeapUpto h.parent_child_relation h.elements h.size

/-- Heaps reachable from a fresh heap by the public mutating API
(`new_min`/`new_max`, `insert`, `insert_all`, `extract_top`). -/
inductive Reachable : Heap α → Prop where
  | new_min (c : Nat) : Reachable (Heap.new_min c)
  | new_max (c : Nat) : Reachable (Heap.new_max c)
  | insert {h h' : Heap α} {v : α} :
      Reachable h → h.insert v = some h' → Reachable h'
  | insert_all {h h' : Heap α} {l : List α} :
      Reachable h → h.insert_all l = some h' → Reachable h'
  | extract_top {h h' : Heap α} {res : Option α} :
      Reachable h → h.extract_top = some (res, h') → Reachable h'

/-- Calls `extract_top` `k` times, collecting the extracted values; a
`None` result from a call (empty heap) or a panic aborts the run. -/
def extract_seq : Nat → Heap α → Option (List α × Heap α)
  | 0, h => some ([], h)
  | k + 1, h =>
    match h.extract_top with
    | none => none
    | some (none, _) => none
    | some (some v, h2) =>
      match extract_seq k h2 with
      | none => none
      | some (out, hf) => some (v :: out, hf)

/-! Basic properties of the ordering relation. -/

theorem rel_refl (r : ParentChildRelation) (a : α) : r.rel a a = true := by
  cases r <;> simp [ParentChildRelation.rel]

theorem rel_trans (r : ParentChildRelation) {a b c : α}
    (h1 : r.rel a b = true) (h2 : r.rel b c = true) : r.rel a c = true := by
  cases r <;> simp only [ParentChildRelation.rel, decide_eq_true_eq,
    ge_iff_le] at *
  · exact le_trans h2 h1
  · exact le_trans h1 h2

theorem rel_total (r : ParentChildRelation) {a b : α}
    (h : r.rel a b = false) : r.rel b a = true := by
  cases r <;> simp only [ParentChildRelation.rel, decide_eq_true_eq,
    decide_eq_false_iff_not, ge_iff_le] at *
  · exact le_of_not_le h
  · exact le_of_not_le h

/-! Index arithmetic on the implicit binary tree. -/

theorem isChildOf_lt {c i : Nat} (h : isChildOf c i) : i < c := by
  rcases h with h | h <;> simp only [left_child_of, right_child_of] at h <;>
    omega

theorem isChildOf_parent_of {c : Nat} (h : 1 ≤ c) :
    isChildOf c (parent_of c) := by
  unfold isChildOf parent_of left_child_of right_child_of
  omega

theorem isChildOf_parent_eq {c i : Nat} (h : isChildOf c i) :
    i = parent_of c := by
  rcases h with h | h <;>
    simp only [left_child_of, right_child_of, parent_of] at * <;> omega

/-! Properties of the panic-checked swap. -/

theorem swapIdx_eq_some {l : List α} {i j : Nat}
    (hi : i < l.length) (hj : j < l.length) :
    swapIdx l i j = some ((l.set i (l.get ⟨j, hj⟩)).set j (l.get ⟨i, hi⟩)) := by
  simp [swapIdx, List.getElem?_eq_getElem, hi, hj]

theorem swapIdx_length {l l' : List α} {i j : Nat}
    (h : swapIdx l i j = some l') : l'.length = l.length := by
  unfold swapIdx at h
  cases hi : l[i]? with
  | none => rw [hi] at h; cases h
  | some a =>
    cases hj : l[j]? with
    | none => rw [hi, hj] at h; cases h
    | some b =>
      rw [hi, hj] at h
      cases h
      simp

theorem swapIdx_lt_length {l l' : List α} {i j : Nat}
    (h : swapIdx l i j = some l') : i < l.length ∧ j < l.length := by
  unfold swapIdx at h
  cases hi : l[i]? with
  | none => rw [hi] at h; cases h
  | some a =>
    cases hj : l[j]? with
    | none => rw [hi, hj] at h; cases h
    | some b =>
      constructor
      · exact (List.getElem?_eq_some.mp hi).1
      · exact (List.getElem?_eq_some.mp hj).1

theorem swapIdx_getElem? {l l' : List α} {i j : Nat}
    (h : swapIdx l i j = some l') (k : Nat) :
    l'[k]? = if k = j then l[i]? else if k = i then l[j]? else l[k]? := by
  obtain ⟨hi, hj⟩ := swapIdx_lt_length h
  unfold swapIdx at h
  rw [List.getElem?_eq_getElem hi, List.getElem?_eq_getElem hj] at h
  cases h
  by_cases hkj : k = j
  · subst hkj
    rw [if_pos rfl, List.getElem?_set_self (by simpa using hj),
      List.getElem?_eq_getElem hi]
  · rw [if_neg hkj, List.getElem?_set_ne (fun hh => hkj hh.symm)]
    by_cases hki : k = i
    · subst hki
      rw [if_pos rfl, List.getElem?_set_self hi, List.getElem?_eq_getElem hj]
    · rw [if_neg hki, List.getElem?_set_ne (fun hh => hki hh.symm)]

theorem getElem_cons_set_perm :
    ∀ (t : List α) (k : Nat) (x b : α), t[k]? = some b →
      (b :: t.set k x).Perm (x :: t) := by
  intro t
  induction t with
  | nil => intro k x b hb; cases hb
  | cons y t2 ih =>
    intro k x b hb
    cases k with
    | zero =>
      simp only [List.getElem?_cons_zero, Option.some.injEq] at hb
      rw [← hb]
      simp only [List.set_cons_zero]
      exact List.Perm.swap x y t2
    | succ k2 =>
      simp only [List.getElem?_cons_succ] at hb
      simp only [List.set_cons_succ]
      have s1 : (b :: y :: t2.set k2 x).Perm (y :: b :: t2.set k2 x) :=
        List.Perm.swap y b _
      have s2 : (y :: b :: t2.set k2 x).Perm (y :: x :: t2) :=
        List.Perm.cons y (ih k2 x b hb)
      have s3 : (y :: x :: t2).Perm (x :: y :: t2) := List.Perm.swap x y t2
      exact (s1.trans s2).trans s3

theorem swapIdx_perm :
    ∀ (l l' : List α) (i j : Nat), swapIdx l i j = some l' → l'.Perm l := by
  intro l
  induction l with
  | nil => intro l' i j h; simp [swapIdx] at h
  | cons x t ih =>
    intro l' i j h
    unfold swapIdx at h
    cases i with
    | zero =>
      cases j with
      | zero =>
        simp only [List.getElem?_cons_zero, Option.some.injEq] at h
        cases h
        simp
      | succ k =>
        simp only [List.getElem?_cons_zero, List.getElem?_cons_succ] at h
        cases hb : t[k]? with
        | none => rw [hb] at h; cases h
        | some b =>
          rw [hb] at h
          cases h
          simp only [List.set_cons_zero, List.set_cons_succ]
          exact getElem_cons_set_perm t k x b hb
    | succ m =>
      cases j with
      | zero =>
        simp only [List.getElem?_cons_zero, List.getElem?_cons_succ] at h
        cases ha : t[m]? with
        | none => rw [ha] at h; cases h
        | some a =>
          rw [ha] at h
          cases h
          simp only [List.set_cons_succ, List.set_cons_zero]
          exact getElem_cons_set_perm t m x a ha
      | succ k =>
        simp only [List.getElem?_cons_succ] at h
        cases ha : t[m]? with
        | none => rw [ha] at h; cases h
        | some a =>
          cases hb : t[k]? with
          | none => rw [ha, hb] at h; cases h
          | some b =>
            rw [ha, hb] at h
            cases h
            simp only [List.set_cons_succ]
            refine List.Perm.cons x (ih _ m k ?_)
            simp [swapIdx, ha, hb]

theorem swapIdx_drop {l l' : List α} {i j n : Nat}
    (h : swapIdx l i j = some l') (hi : i < n) (hj : j < n) :
    l'.drop n = l.drop n := by
  obtain ⟨hi', hj'⟩ := swapIdx_lt_length h
  unfold swapIdx at h
  rw [List.getElem?_eq_getElem hi', List.getElem?_eq_getElem hj'] at h
  cases h
  rw [List.drop_set_of_lt _ _ hj, List.drop_set_of_lt _ _ hi]

theorem perm_take_of_perm_of_drop_eq {l l' : List α} {n : Nat}
    (hperm : l'.Perm l) (hdrop : l'.drop n = l.drop n) :
    (l'.take n).Perm (l.take n) := by
  have h1 : (l'.take n : Multiset α) + (l'.drop n : Multiset α) =
      (l.take n : Multiset α) + (l.drop n : Multiset α) := by
    rw [Multiset.coe_add, Multiset.coe_add, List.take_append_drop,
      List.take_append_drop]
    exact Multiset.coe_eq_coe.mpr hperm
  rw [hdrop] at h1
  have h2 := add_right_cancel h1
  exact Multiset.coe_eq_coe.mp h2

/-! Characterizations of `heap_property_satisfied` and of the
`shift_down` loop (restated with non-dependent matches). -/

theorem hps_eq_some {l : List α} {i c : Nat} (r : ParentChildRelation)
    (hi : i < l.length) (hc : c < l.length) :
    heap_property_satisfied r l i c =
      some (r.rel (l.get ⟨i, hi⟩) (l.get ⟨c, hc⟩)) := by
  simp [heap_property_satisfied, List.getElem?_eq_getElem, hi, hc]

theorem hps_isSome {l : List α} {i c : Nat} {r : ParentChildRelation}
    {b : Bool} (h : heap_property_satisfied r l i c = some b) :
    i < l.length ∧ c < l.length := by
  unfold heap_property_satisfied at h
  cases hi : l[i]? with
  | none => rw [hi] at h; cases h
  | some p =>
    cases hc : l[c]? with
    | none => rw [hi, hc] at h; cases h
    | some q =>
      exact ⟨(List.getElem?_eq_some.mp hi).1, (List.getElem?_eq_some.mp hc).1⟩

theorem hps_true_dominatesAt {l : List α} {i c : Nat}
    {r : ParentChildRelation}
    (h : heap_property_satisfied r l i c = some true) : dominatesAt r l i c := by
  unfold heap_property_satisfied at h
  intro p hp q hq
  rw [hp, hq] at h
  simpa using h

theorem shift_down_loop_eq (r : ParentChildRelation) (l : List α)
    (size current_parent : Nat) :
    shift_down_loop r l size current_parent =
      if size ≤ left_child_of current_parent then some l
      else
        match shift_down_choose r l size current_parent with
        | none => none
        | some current_child =>
          match heap_property_satisfied r l current_parent current_child with
          | none => none
          | some true => some l
          | some false =>
            match swapIdx l current_parent current_child with
            | none => none
            | some l2 => shift_down_loop r l2 size current_child := by
  rw [shift_down_loop.eq_def]
  by_cases h1 : size ≤ left_child_of current_parent
  · rw [dif_pos h1, if_pos h1]
  · rw [dif_neg h1, if_neg h1]
    split
    · rename_i heq
      rw [heq]
    · rename_i cc heq
      rw [heq]

/-! Generic facts about `dominatesAt`. -/

theorem dominatesAt_trans {r : ParentChildRelation} {l : List α} {a b c : Nat}
    (hb : b < l.length) (h1 : dominatesAt r l a b) (h2 : dominatesAt r l b c) :
    dominatesAt r l a c := by
  intro p hp q hq
  have hvb : l[b]? = some (l.get ⟨b, hb⟩) := List.getElem?_eq_getElem hb
  exact rel_trans r (h1 p hp _ (by rw [hvb]; rfl)) (h2 _ (by rw [hvb]; rfl) q hq)

theorem dominatesAt_self {r : ParentChildRelation} {l : List α} (i : Nat) :
    dominatesAt r l i i := by
  intro p hp q hq
  simp only [Option.mem_def] at hp hq
  rw [hp] at hq
  cases hq
  exact rel_refl r p

/-! Correctness of the `shift_up` loop. -/

theorem up_swap {r : ParentChildRelation} {l l₂ : List α} {n j : Nat}
    (hn : n ≤ l.length) (hj1 : 1 ≤ j) (hjn : j < n)
    (hInv : UpInv r l n j)
    (hfalse : heap_property_satisfied r l (parent_of j) j = some false)
    (hswap : swapIdx l (parent_of j) j = some l₂) :
    UpInv r l₂ n (parent_of j) := by
  set p := parent_of j with hpdef
  have hpj : p < j := isChildOf_lt (isChildOf_parent_of hj1)
  have hpn : p < n := lt_trans hpj hjn
  have hpl : p < l.length := lt_of_lt_of_le hpn hn
  have hjl : j < l.length := lt_of_lt_of_le hjn hn
  obtain ⟨vp, hvp⟩ : ∃ v, l[p]? = some v := ⟨_, List.getElem?_eq_getElem hpl⟩
  obtain ⟨vj, hvj⟩ : ∃ v, l[j]? = some v := ⟨_, List.getElem?_eq_getElem hjl⟩
  have hrel_pj : r.rel vp vj = false := by
    unfold heap_property_satisfied at hfalse
    rw [hvp, hvj] at hfalse
    simpa using hfalse
  have hget := swapIdx_getElem? hswap
  have h2p : l₂[p]? = some vj := by
    rw [hget p, if_neg (Nat.ne_of_lt hpj), if_pos rfl, hvj]
  have h2j : l₂[j]? = some vp := by
    rw [hget j, if_pos rfl, hvp]
  have h2other : ∀ k, k ≠ p → k ≠ j → l₂[k]? = l[k]? := by
    intro k hkp hkj
    rw [hget k, if_neg hkj, if_neg hkp]
  constructor
  · intro i c hchild hcn hcp
    by_cases hcj : c = j
    · subst hcj
      have hip : i = p := by rw [isChildOf_parent_eq hchild, ← hpdef]
      subst hip
      intro a ha b hb
      rw [h2p] at ha
      rw [h2j] at hb
      simp only [Option.mem_def, Option.some.injEq] at ha hb
      rw [← ha, ← hb]
      exact rel_total r hrel_pj
    · by_cases hij : i = j
      · subst hij
        intro a ha b hb
        rw [h2j] at ha
        rw [h2other c hcp hcj] at hb
        simp only [Option.mem_def, Option.some.injEq] at ha
        rw [← ha]
        exact hInv.2 c hchild hcn vp (by rw [hvp]; rfl) b hb
      · by_cases hip : i = p
        · subst hip
          intro a ha b hb
          rw [h2p] at ha
          rw [h2other c hcp hcj] at hb
          simp only [Option.mem_def, Option.some.injEq] at ha
          rw [← ha]
          have hrel1 : r.rel vp b = true :=
            hInv.1 p c hchild hcn hcj vp (by rw [hvp]; rfl) b hb
          exact rel_trans r (rel_total r hrel_pj) hrel1
        · intro a ha b hb
          rw [h2other i hip hij] at ha
          rw [h2other c hcp hcj] at hb
          exact hInv.1 i c hchild hcn hcj a ha b hb
  · intro c hchild hcn
    have hjchild : isChildOf j p := isChildOf_parent_of hj1
    by_cases hp0 : p = 0
    · have hg : parent_of p = p := by rw [hp0]; rfl
      rw [hg]
      by_cases hcj : c = j
      · subst hcj
        intro a ha b hb
        rw [h2p] at ha
        rw [h2j] at hb
        simp only [Option.mem_def, Option.some.injEq] at ha hb
        rw [← ha, ← hb]
        exact rel_total r hrel_pj
      · have hcp : c ≠ p := Nat.ne_of_gt (isChildOf_lt hchild)
        intro a ha b hb
        rw [h2p] at ha
        rw [h2other c hcp hcj] at hb
        simp only [Option.mem_def, Option.some.injEq] at ha
        rw [← ha]
        have hrel1 : r.rel vp b = true :=
          hInv.1 p c hchild hcn hcj vp (by rw [hvp]; rfl) b hb
        exact rel_trans r (rel_total r hrel_pj) hrel1
    · have hp1 : 1 ≤ p := Nat.one_le_iff_ne_zero.mpr hp0
      have hgp : parent_of p < p := isChildOf_lt (isChildOf_parent_of hp1)
      have hgj : parent_of p ≠ j := Nat.ne_of_lt (lt_trans hgp hpj)
      have hgp' : parent_of p ≠ p := Nat.ne_of_lt hgp
      have hgl : parent_of p < l.length := lt_trans hgp hpl
      obtain ⟨vg, hvg⟩ : ∃ v, l[parent_of p]? = some v :=
        ⟨_, List.getElem?_eq_getElem hgl⟩
      have hrel_gp : r.rel vg vp = true :=
        hInv.1 (parent_of p) p (isChildOf_parent_of hp1) hpn
          (Nat.ne_of_lt hpj) vg (by rw [hvg]; rfl) vp (by rw [hvp]; rfl)
      by_cases hcj : c = j
      · subst hcj
        intro a ha b hb
        rw [h2other (parent_of p) hgp' hgj] at ha
        rw [h2j] at hb
        rw [hvg] at ha
        simp only [Option.mem_def, Option.some.injEq] at ha hb
        rw [← ha, ← hb]
        exact hrel_gp
      · have hcp : c ≠ p := Nat.ne_of_gt (isChildOf_lt hchild)
        intro a ha b hb
        rw [h2other (parent_of p) hgp' hgj] at ha
        rw [h2other c hcp hcj] at hb
        rw [hvg] at ha
        simp only [Option.mem_def, Option.some.injEq] at ha
        rw [← ha]
        have hrel1 : r.rel vp b = true :=
          hInv.1 p c hchild hcn hcj vp (by rw [hvp]; rfl) b hb
        exact rel_trans r hrel_gp hrel1

theorem shift_up_loop_spec :
    ∀ (j : Nat) (l : List α) (r : ParentChildRelation) (n : Nat),
      n ≤ l.length → 1 ≤ j → j < n → UpInv r l n j →
      ∃ l₂, shift_up_loop r l j = some l₂ ∧ IsHeapUpto r l₂ n ∧
        l₂.length = l.length ∧ l₂.Perm l ∧ l₂.drop n = l.drop n := by
  intro j
  induction j using Nat.strong_induction_on with
  | _ j ih =>
    intro l r n hn hj1 hjn hInv
    have hpj : parent_of j < j := isChildOf_lt (isChildOf_parent_of hj1)
    have hpn : parent_of j < n := lt_trans hpj hjn
    have hpl : parent_of j < l.length := lt_of_lt_of_le hpn hn
    have hjl : j < l.length := lt_of_lt_of_le hjn hn
    obtain ⟨vp, hvp⟩ : ∃ v, l[parent_of j]? = some v :=
      ⟨_, List.getElem?_eq_getElem hpl⟩
    obtain ⟨vj, hvj⟩ : ∃ v, l[j]? = some v := ⟨_, List.getElem?_eq_getElem hjl⟩
    have hpseq : heap_property_satisfied r l (parent_of j) j =
        some (r.rel vp vj) := by
      unfold heap_property_satisfied
      rw [hvp, hvj]
    rw [shift_up_loop.eq_def, hpseq]
    cases hrel : r.rel vp vj with
    | true =>
      refine ⟨l, rfl, ?_, rfl, List.Perm.refl l, rfl⟩
      intro i c hchild hcn
      by_cases hcj : c = j
      · subst hcj
        have hip : i = parent_of c := isChildOf_parent_eq hchild
        subst hip
        intro a ha b hb
        rw [hvp] at ha
        rw [hvj] at hb
        simp only [Option.mem_def, Option.some.injEq] at ha hb
        rw [← ha, ← hb]
        exact hrel
      · exact hInv.1 i c hchild hcn hcj
    | false =>
      have hswap := swapIdx_eq_some hpl hjl
      rw [hswap]
      have hfalse : heap_property_satisfied r l (parent_of j) j = some false := by
        rw [hpseq, hrel]
      have hInv₂ := up_swap hn hj1 hjn hInv hfalse hswap
      have hperm₂ := swapIdx_perm l _ (parent_of j) j hswap
      have hlen₂ := swapIdx_length hswap
      have hdrop₂ := swapIdx_drop hswap hpn hjn
      by_cases hp0 : parent_of j = 0
      · refine ⟨_, dif_pos hp0, ?_, hlen₂, hperm₂, hdrop₂⟩
        intro i c hchild hcn
        refine hInv₂.1 i c hchild hcn ?_
        rw [hp0]
        have hc1 : 1 ≤ c := by
          have := isChildOf_lt hchild
          omega
        omega
      · have hp1 : 1 ≤ parent_of j := Nat.one_le_iff_ne_zero.mpr hp0
        obtain ⟨l₃, heq, hheap, hlen, hperm, hdrop⟩ :=
          ih (parent_of j) hpj _ r n (by rw [hlen₂]; exact hn) hp1 hpn hInv₂
        refine ⟨l₃, (dif_neg hp0).trans heq, hheap, by rw [hlen, hlen₂],
          hperm.trans hperm₂, ?_⟩
        rw [hdrop, hdrop₂]

/-! Correctness of the `shift_down` loop. -/

theorem down_swap {r : ParentChildRelation} {l l₂ : List α} {n j cc : Nat}
    (hn : n ≤ l.length) (hjn : j < n)
    (hInv : DownInv r l n j)
    (hcc_child : isChildOf cc j) (hccn : cc < n)
    (hsib : ∀ s, isChildOf s j → s < n → s ≠ cc → dominatesAt r l cc s)
    (hfalse : heap_property_satisfied r l j cc = some false)
    (hswap : swapIdx l j cc = some l₂) :
    DownInv r l₂ n cc := by
  have hjcc : j < cc := isChildOf_lt hcc_child
  have hjl : j < l.length := lt_of_lt_of_le hjn hn
  have hccl : cc < l.length := lt_of_lt_of_le hccn hn
  obtain ⟨vj, hvj⟩ : ∃ v, l[j]? = some v := ⟨_, List.getElem?_eq_getElem hjl⟩
  obtain ⟨vcc, hvcc⟩ : ∃ v, l[cc]? = some v := ⟨_, List.getElem?_eq_getElem hccl⟩
  have hrel_jcc : r.rel vj vcc = false := by
    unfold heap_property_satisfied at hfalse
    rw [hvj, hvcc] at hfalse
    simpa using hfalse
  have hget := swapIdx_getElem? hswap
  have h2j : l₂[j]? = some vcc := by
    rw [hget j, if_neg (Nat.ne_of_lt hjcc), if_pos rfl, hvcc]
  have h2cc : l₂[cc]? = some vj := by
    rw [hget cc, if_pos rfl, hvj]
  have h2other : ∀ k, k ≠ j → k ≠ cc → l₂[k]? = l[k]? := by
    intro k hkj hkcc
    rw [hget k, if_neg hkcc, if_neg hkj]
  constructor
  · intro i c hchild hcn hicc
    by_cases hij : i = j
    · subst hij
      by_cases hccc : c = cc
      · subst hccc
        intro a ha b hb
        rw [h2j] at ha
        rw [h2cc] at hb
        simp only [Option.mem_def, Option.some.injEq] at ha hb
        rw [← ha, ← hb]
        exact rel_total r hrel_jcc
      · have hcj : c ≠ i := Nat.ne_of_gt (isChildOf_lt hchild)
        intro a ha b hb
        rw [h2j] at ha
        rw [h2other c hcj hccc] at hb
        simp only [Option.mem_def, Option.some.injEq] at ha
        rw [← ha]
        exact hsib c hchild hcn hccc vcc (by rw [hvcc]; rfl) b hb
    · by_cases hcj : c = j
      · subst hcj
        have hj1 : 1 ≤ c := by
          have := isChildOf_lt hchild
          omega
        have hip : i = parent_of c := isChildOf_parent_eq hchild
        have hpc : parent_of c < c := isChildOf_lt (isChildOf_parent_of hj1)
        have hpicc : i ≠ cc := by omega
        intro a ha b hb
        rw [h2other i hij hpicc] at ha
        rw [h2j] at hb
        simp only [Option.mem_def, Option.some.injEq] at hb
        rw [← hb]
        have hd := hInv.2 (by omega) cc hcc_child hccn
        rw [← hip] at hd
        exact hd a ha vcc (by rw [hvcc]; rfl)
      · have hccne : c ≠ cc := by
          intro hc
          subst hc
          exact hij (isChildOf_parent_eq hchild ▸ (isChildOf_parent_eq hcc_child).symm)
        intro a ha b hb
        rw [h2other i hij hicc] at ha
        rw [h2other c hcj hccne] at hb
        exact hInv.1 i c hchild hcn hij a ha b hb
  · intro _ d hchild hdn
    have hpcc : j = parent_of cc := isChildOf_parent_eq hcc_child
    rw [← hpcc]
    have hccd : cc < d := isChildOf_lt hchild
    intro a ha b hb
    rw [h2j] at ha
    rw [h2other d (by omega) (by omega)] at hb
    simp only [Option.mem_def, Option.some.injEq] at ha
    rw [← ha]
    exact hInv.1 cc d hchild hdn (by omega) vcc (by rw [hvcc]; rfl) b hb

theorem shift_down_loop_spec :
    ∀ (m : Nat) (l : List α) (r : ParentChildRelation) (n j : Nat),
      n - j ≤ m → n ≤ l.length → j < n → DownInv r l n j →
      ∃ l₂, shift_down_loop r l n j = some l₂ ∧ IsHeapUpto r l₂ n ∧
        l₂.length = l.length ∧ l₂.Perm l ∧ l₂.drop n = l.drop n := by
  intro m
  induction m with
  | zero =>
    intro l r n j hm hn hjn hInv
    omega
  | succ m ih =>
    intro l r n j hm hn hjn hInv
    rw [shift_down_loop_eq]
    by_cases h1 : n ≤ left_child_of j
    · rw [if_pos h1]
      refine ⟨l, rfl, ?_, rfl, List.Perm.refl l, rfl⟩
      intro i c hchild hcn
      by_cases hij : i = j
      · subst hij
        exfalso
        rcases hchild with hc | hc <;>
          simp only [left_child_of, right_child_of] at * <;> omega
      · exact hInv.1 i c hchild hcn hij
    · rw [if_neg h1]
      have hlcn : left_child_of j < n := by omega
      have hjl : j < l.length := lt_of_lt_of_le hjn hn
      obtain ⟨cc, hccdef, hcc_child, hccn, hsib⟩ :
          ∃ cc, shift_down_choose r l n j = some cc ∧ isChildOf cc j ∧
            cc < n ∧
            (∀ s, isChildOf s j → s < n → s ≠ cc → dominatesAt r l cc s) := by
        by_cases h2 : right_child_of j < n
        · have hlcl : left_child_of j < l.length := lt_of_lt_of_le hlcn hn
          have hrcl : right_child_of j < l.length := lt_of_lt_of_le h2 hn
          obtain ⟨vlc, hvlc⟩ : ∃ v, l[left_child_of j]? = some v :=
            ⟨_, List.getElem?_eq_getElem hlcl⟩
          obtain ⟨vrc, hvrc⟩ : ∃ v, l[right_child_of j]? = some v :=
            ⟨_, List.getElem?_eq_getElem hrcl⟩
          have hpseq : heap_property_satisfied r l (left_child_of j)
              (right_child_of j) = some (r.rel vlc vrc) := by
            unfold heap_property_satisfied
            rw [hvlc, hvrc]
          have hlcrc : left_child_of j ≠ right_child_of j := by
            simp only [left_child_of, right_child_of]
            omega
          cases hb : r.rel vlc vrc with
          | true =>
            refine ⟨left_child_of j, ?_, Or.inl rfl, hlcn, ?_⟩
            · unfold shift_down_choose
              rw [if_pos h2, hpseq, hb]
              rfl
            · intro s hs hsn hsne
              have hsrc : s = right_child_of j := by
                rcases hs with hs | hs
                · exact absurd hs hsne
                · exact hs
              subst hsrc
              intro a ha b hbb
              rw [hvlc] at ha
              rw [hvrc] at hbb
              simp only [Option.mem_def, Option.some.injEq] at ha hbb
              rw [← ha, ← hbb]
              exact hb
          | false =>
            refine ⟨right_child_of j, ?_, Or.inr rfl, h2, ?_⟩
            · unfold shift_down_choose
              rw [if_pos h2, hpseq, hb]
              rfl
            · intro s hs hsn hsne
              have hslc : s = left_child_of j := by
                rcases hs with hs | hs
                · exact hs
                · exact absurd hs hsne
              subst hslc
              intro a ha b hbb
              rw [hvrc] at ha
              rw [hvlc] at hbb
              simp only [Option.mem_def, Option.some.injEq] at ha hbb
              rw [← ha, ← hbb]
              exact rel_total r hb
        · refine ⟨left_child_of j, ?_, Or.inl rfl, hlcn, ?_⟩
          · unfold shift_down_choose
            rw [if_neg h2]
          · intro s hs hsn hsne
            exfalso
            rcases hs with hs | hs
            · exact hsne hs
            · rw [hs] at hsn
              exact h2 hsn
      simp only [hccdef]
      have hccl : cc < l.length := lt_of_lt_of_le hccn hn
      obtain ⟨vj, hvj⟩ : ∃ v, l[j]? = some v := ⟨_, List.getElem?_eq_getElem hjl⟩
      obtain ⟨vcc, hvcc⟩ : ∃ v, l[cc]? = some v :=
        ⟨_, List.getElem?_eq_getElem hccl⟩
      have hpseq2 : heap_property_satisfied r l j cc = some (r.rel vj vcc) := by
        unfold heap_property_satisfied
        rw [hvj, hvcc]
      rw [hpseq2]
      cases hrel : r.rel vj vcc with
      | true =>
        refine ⟨l, rfl, ?_, rfl, List.Perm.refl l, rfl⟩
        intro i c hchild hcn
        by_cases hij : i = j
        · subst hij
          by_cases hccc : c = cc
          · subst hccc
            intro a ha b hb
            rw [hvj] at ha
            rw [hvcc] at hb
            simp only [Option.mem_def, Option.some.injEq] at ha hb
            rw [← ha, ← hb]
            exact hrel
          · intro a ha b hb
            rw [hvj] at ha
            simp only [Option.mem_def, Option.some.injEq] at ha
            rw [← ha]
            have hd : dominatesAt r l cc c := hsib c hchild hcn hccc
            exact rel_trans r hrel (hd vcc (by rw [hvcc]; rfl) b hb)
        · exact hInv.1 i c hchild hcn hij
      | false =>
        have hswap := swapIdx_eq_some hjl hccl
        rw [hswap]
        have hfalse : heap_property_satisfied r l j cc = some false := by
          rw [hpseq2, hrel]
        have hInv₂ := down_swap hn hjn hInv hcc_child hccn hsib hfalse hswap
        have hperm₂ := swapIdx_perm l _ j cc hswap
        have hlen₂ := swapIdx_length hswap
        have hdrop₂ := swapIdx_drop hswap hjn hccn
        have hjcc : j < cc := isChildOf_lt hcc_child
        obtain ⟨l₃, heq, hheap, hlen, hperm, hdrop⟩ :=
          ih _ r n cc (by omega) (by rw [hlen₂]; exact hn) hccn hInv₂
        refine ⟨l₃, heq, hheap, by rw [hlen, hlen₂], hperm.trans hperm₂, ?_⟩
        rw [hdrop, hdrop₂]

/-- In a heap, the root dominates every live slot. -/
theorem root_dominatesAt {r : ParentChildRelation} {l : List α} {n : Nat}
    (hheap : IsHeapUpto r l n) (hn : n ≤ l.length) :
    ∀ i, i < n → dominatesAt r l 0 i := by
  intro i
  induction i using Nat.strong_induction_on with
  | _ i ih =>
    intro hin
    rcases Nat.eq_zero_or_pos i with hi0 | hi1
    · subst hi0
      exact dominatesAt_self 0
    · have hpi : parent_of i < i := isChildOf_lt (isChildOf_parent_of hi1)
      have h1 : dominatesAt r l 0 (parent_of i) :=
        ih (parent_of i) hpi (lt_trans hpi hin)
      have h2 : dominatesAt r l (parent_of i) i :=
        hheap (parent_of i) i (isChildOf_parent_of hi1) hin
      exact dominatesAt_trans (lt_of_lt_of_le (lt_trans hpi hin) hn) h1 h2

theorem dominatesAt_congr {r : ParentChildRelation} {l₂ l : List α}
    {a b a' b' : Nat} (ha : l₂[a]? = l[a']?) (hb : l₂[b]? = l[b']?)
    (h : dominatesAt r l a' b') : dominatesAt r l₂ a b := by
  intro p hp q hq
  rw [Option.mem_def, ha, ← Option.mem_def] at hp
  rw [Option.mem_def, hb, ← Option.mem_def] at hq
  exact h p hp q hq

/-- Truncating a `set` at or before the written slot leaves the prefix
unchanged. -/
theorem take_set_le {l : List α} {n k : Nat} (a : α) (h : k ≤ n) :
    (l.set n a).take k = l.take k := by
  rw [List.set_take]
  exact List.set_eq_of_length_le (by rw [List.length_take]; omega)

/-! Specification of `Heap.insert`. -/

theorem insert_spec {h : Heap α} (hInv : h.Inv) (v : α) :
    ∃ h', h.insert v = some h' ∧ h'.Inv ∧ h'.size = h.size + 1 ∧
      h'.parent_child_relation = h.parent_child_relation ∧
      h'.iter.Perm (v :: h.iter) := by
  obtain ⟨hwf, hheap⟩ := hInv
  obtain ⟨l₀, hl₀eq, hl₀len, hl₀get, hl₀s, hl₀take⟩ :
      ∃ l₀, (if h.size = h.elements.length then some (h.elements ++ [v])
             else if h.size < h.elements.length
             then some (h.elements.set h.size v) else none) = some l₀ ∧
        h.size + 1 ≤ l₀.length ∧
        (∀ k, k < h.size → l₀[k]? = h.elements[k]?) ∧
        l₀[h.size]? = some v ∧
        l₀.take (h.size + 1) = h.elements.take h.size ++ [v] := by
    by_cases hfull : h.size = h.elements.length
    · refine ⟨h.elements ++ [v], by rw [if_pos hfull], ?_, ?_, ?_, ?_⟩
      · rw [List.length_append]
        simp
        omega
      · intro k hk
        exact List.getElem?_append_left (by omega)
      · rw [hfull]
        exact List.getElem?_concat_length h.elements v
      · rw [hfull, List.take_length, List.take_of_length_le]
        rw [List.length_append]
        simp
    · have hlt : h.size < h.elements.length := lt_of_le_of_ne hwf hfull
      refine ⟨h.elements.set h.size v, by rw [if_neg hfull, if_pos hlt], ?_, ?_,
        ?_, ?_⟩
      · rw [List.length_set]
        omega
      · intro k hk
        exact List.getElem?_set_ne (by omega)
      · exact List.getElem?_set_self hlt
      · rw [List.take_succ, List.getElem?_set_self hlt, take_set_le v le_rfl]
        rfl
  unfold Heap.insert
  simp only [hl₀eq]
  by_cases hpos : 0 < h.size
  · rw [if_pos hpos]
    have hup : UpInv h.parent_child_relation l₀ (h.size + 1) h.size := by
      constructor
      · intro i c hchild hcn hcs
        have hcs' : c < h.size := by omega
        have hic : i < c := isChildOf_lt hchild
        exact dominatesAt_congr (hl₀get i (by omega)) (hl₀get c hcs')
          (hheap i c hchild hcs')
      · intro c hchild hcn
        have := isChildOf_lt hchild
        rcases hchild with hc | hc <;>
          simp only [left_child_of, right_child_of] at hc <;> omega
    obtain ⟨l₂, heq, hheap₂, hlen₂, hperm₂, hdrop₂⟩ :=
      shift_up_loop_spec h.size l₀ h.parent_child_relation (h.size + 1)
        hl₀len hpos (by omega) hup
    have hwf2 : h.size + 1 ≤ l₂.length := by
      rw [hlen₂]
      exact hl₀len
    refine ⟨⟨l₂, h.size + 1, h.parent_child_relation⟩, ?_, ⟨hwf2, hheap₂⟩, rfl,
      rfl, ?_⟩
    · simp only [Heap.shift_up, heq, Option.map_some']
    · show (l₂.take (h.size + 1)).Perm (v :: h.elements.take h.size)
      have h1 : (l₂.take (h.size + 1)).Perm (l₀.take (h.size + 1)) :=
        perm_take_of_perm_of_drop_eq hperm₂ hdrop₂
      rw [hl₀take] at h1
      exact h1.trans (List.perm_append_singleton v _)
  · rw [if_neg hpos]
    have hs0 : h.size = 0 := by omega
    have hh1 : IsHeapUpto h.parent_child_relation l₀ (h.size + 1) := by
      intro i c hchild hcn
      have hic : i < c := isChildOf_lt hchild
      rcases hchild with hc | hc <;>
        simp only [left_child_of, right_child_of] at hc <;> omega
    refine ⟨⟨l₀, h.size + 1, h.parent_child_relation⟩, rfl, ⟨hl₀len, hh1⟩, rfl,
      rfl, ?_⟩
    show (l₀.take (h.size + 1)).Perm (v :: h.elements.take h.size)
    rw [hl₀take, hs0]
    simp

/-! Specification of `Heap.extract_top`. -/

theorem extract_spec_zero {h : Heap α} (h0 : h.size = 0) :
    h.extract_top = some (none, h) := by
  unfold Heap.extract_top
  rw [if_pos h0]

theorem extract_spec_pos {h : Heap α} (hInv : h.Inv) (hpos : 0 < h.size) :
    ∃ v h', h.extract_top = some (some v, h') ∧ h.find_top = some v ∧
      h'.Inv ∧ h'.size + 1 = h.size ∧
      h'.parent_child_relation = h.parent_child_relation ∧
      (v :: h'.iter).Perm h.iter := by
  obtain ⟨hwf, hheap⟩ := hInv
  have hlen0 : 0 < h.elements.length := lt_of_lt_of_le hpos hwf
  obtain ⟨v, hv⟩ : ∃ v, h.elements[0]? = some v :=
    ⟨_, List.getElem?_eq_getElem hlen0⟩
  have hfind : h.find_top = some v := by
    unfold Heap.find_top
    rw [List.head?_eq_getElem?, hv]
  unfold Heap.extract_top
  rw [if_neg (by omega)]
  simp only []
  by_cases hs'pos : 0 < h.size - 1
  · rw [if_pos hs'pos]
    have hs'len : h.size - 1 < h.elements.length := by omega
    have hswap := swapIdx_eq_some hlen0 hs'len
    set b := h.elements.get ⟨h.size - 1, hs'len⟩ with hbdef
    set a := h.elements.get ⟨0, hlen0⟩ with hadef
    set L2 := (h.elements.set 0 b).set (h.size - 1) a with hL2def
    rw [hswap]
    have hget := swapIdx_getElem? hswap
    have hL2len : L2.length = h.elements.length := swapIdx_length hswap
    have hdown : DownInv h.parent_child_relation L2 (h.size - 1) 0 := by
      constructor
      · intro i c hchild hcn hi0
        have hic : i < c := isChildOf_lt hchild
        have hcs : c < h.size := by omega
        refine dominatesAt_congr (l := h.elements) ?_ ?_ (hheap i c hchild hcs)
        · rw [hget i, if_neg (by omega), if_neg hi0]
        · rw [hget c, if_neg (by omega), if_neg (by omega)]
      · intro hfalse
        exact absurd rfl hfalse
    obtain ⟨l₃, heq, hheap₃, hlen₃, hperm₃, hdrop₃⟩ :=
      shift_down_loop_spec (h.size - 1) L2 h.parent_child_relation
        (h.size - 1) 0 le_rfl (by omega) hs'pos hdown
    simp only [heq]
    have hwf3 : h.size - 1 ≤ l₃.length := by
      rw [hlen₃, hL2len]
      omega
    have hsz3 : (h.size - 1) + 1 = h.size := by omega
    refine ⟨v, ⟨l₃, h.size - 1, h.parent_child_relation⟩, by rw [hfind], hfind,
      ⟨hwf3, hheap₃⟩, hsz3, rfl, ?_⟩
    show (v :: l₃.take (h.size - 1)).Perm (h.elements.take h.size)
    have h1 : (l₃.take (h.size - 1)).Perm (L2.take (h.size - 1)) :=
      perm_take_of_perm_of_drop_eq hperm₃ hdrop₃
    have h2 : L2.take (h.size - 1) = (h.elements.take (h.size - 1)).set 0 b := by
      rw [hL2def, take_set_le a le_rfl, List.set_take]
    have hA0 : (h.elements.take (h.size - 1))[0]? = some v := by
      rw [List.getElem?_take, if_pos hs'pos, hv]
    have h3 : (v :: (h.elements.take (h.size - 1)).set 0 b).Perm
        (b :: h.elements.take (h.size - 1)) :=
      getElem_cons_set_perm _ 0 b v hA0
    have h4 : h.elements.take h.size =
        h.elements.take (h.size - 1) ++ [b] := by
      have hsz : h.size = (h.size - 1) + 1 := by omega
      rw [hsz, List.take_succ, List.getElem?_eq_getElem hs'len]
      rfl
    rw [h4]
    refine ((List.Perm.cons v (h1.trans (by rw [h2]))).trans h3).trans ?_
    exact (List.perm_append_singleton b _).symm
  · rw [if_neg hs'pos]
    have hs1 : h.size = 1 := by omega
    have hh0 : IsHeapUpto h.parent_child_relation h.elements (h.size - 1) := by
      intro i c hchild hcn
      exact absurd hcn (by omega)
    have hwf0 : h.size - 1 ≤ h.elements.length := by omega
    have hsz0 : (h.size - 1) + 1 = h.size := by omega
    refine ⟨v, ⟨h.elements, h.size - 1, h.parent_child_relation⟩, by rw [hfind],
      hfind, ⟨hwf0, hh0⟩, hsz0, rfl, ?_⟩
    show (v :: h.elements.take (h.size - 1)).Perm (h.elements.take h.size)
    rcases hl : h.elements with _ | ⟨x, t⟩
    · rw [hl] at hlen0
      simp at hlen0
    · rw [hl] at hv
      simp only [List.getElem?_cons_zero, Option.some.injEq] at hv
      rw [hs1, hv]
      simp

/-! Invariant preservation along the public API, and reachability. -/

theorem new_inv (c : Nat) (r : ParentChildRelation) :
    (Heap.new (α := α) c r).Inv := by
  refine ⟨Nat.le_refl 0, ?_⟩
  intro i c' hchild hcn
  exact absurd hcn (Nat.not_lt_zero c')

theorem insert_all_spec :
    ∀ (slice : List α) (h : Heap α), h.Inv →
      ∃ h', h.insert_all slice = some h' ∧ h'.Inv ∧
        h'.size = h.size + slice.length ∧
        h'.parent_child_relation = h.parent_child_relation ∧
        h'.iter.Perm (slice ++ h.iter) := by
  intro slice
  induction slice with
  | nil =>
    intro h hInv
    exact ⟨h, rfl, hInv, by simp, rfl, by simp⟩
  | cons v rest ih =>
    intro h hInv
    obtain ⟨h1, he1, hInv1, hs1, hr1, hp1⟩ := insert_spec hInv v
    obtain ⟨h2, he2, hInv2, hs2, hr2, hp2⟩ := ih h1 hInv1
    refine ⟨h2, ?_, hInv2, by simp only [List.length_cons]; omega,
      hr2.trans hr1, ?_⟩
    · unfold Heap.insert_all
      simp only [he1]
      exact he2
    · have hmid : (rest ++ v :: h.iter).Perm (v :: (rest ++ h.iter)) :=
        List.perm_middle

      exact (hp2.trans ((List.Perm.append_left rest hp1).trans hmid)).trans
        (List.Perm.refl _)

theorem reachable_inv {h : Heap α} (hr : Reachable h) : h.Inv := by
  induction hr with
  | new_min c => exact new_inv c ParentChildRelation.Smaller
  | new_max c => exact new_inv c ParentChildRelation.Greater
  | insert _ hstep ih =>
    rename_i h0 h' v _
    obtain ⟨h'', he, hInv'', _, _, _⟩ := insert_spec ih v
    rw [hstep] at he
    injection he with he2
    rw [he2]
    exact hInv''
  | insert_all _ hstep ih =>
    rename_i h0 h' l _
    obtain ⟨h'', he, hInv'', _, _, _⟩ := insert_all_spec l h0 ih
    rw [hstep] at he
    injection he with he2
    rw [he2]
    exact hInv''
  | extract_top _ hstep ih =>
    rename_i h0 h' res _
    by_cases h0size : h0.size = 0
    · have he := extract_spec_zero h0size
      rw [hstep] at he
      injection he with he2
      have := congrArg Prod.snd he2
      simp only at this
      rw [this]
      exact ih
    · obtain ⟨v, h'', he, _, hInv'', _, _, _⟩ :=
        extract_spec_pos ih (by omega)
      rw [hstep] at he
      injection he with he2
      have := congrArg Prod.snd he2
      simp only at this
      rw [this]
      exact hInv''

/-! The top of a non-empty well-formed heap dominates every live element. -/

theorem find_top_extremum {h : Heap α} (hInv : h.Inv) (hpos : 0 < h.size) :
    ∃ m, h.find_top = some m ∧ m ∈ h.iter ∧
      ∀ x ∈ h.iter, h.parent_child_relation.rel m x = true := by
  obtain ⟨hwf, hheap⟩ := hInv
  have hlen0 : 0 < h.elements.length := lt_of_lt_of_le hpos hwf
  obtain ⟨m, hm⟩ : ∃ m, h.elements[0]? = some m :=
    ⟨_, List.getElem?_eq_getElem hlen0⟩
  refine ⟨m, ?_, ?_, ?_⟩
  · unfold Heap.find_top
    rw [List.head?_eq_getElem?, hm]
  · apply List.getElem?_mem (n := 0)
    show (h.elements.take h.size)[0]? = some m
    rw [List.getElem?_take, if_pos hpos, hm]
  · intro x hx
    obtain ⟨i, hi⟩ := List.mem_iff_getElem?.mp hx
    simp only [Heap.iter] at hi
    rw [List.getElem?_take] at hi
    by_cases hisz : i < h.size
    · rw [if_pos hisz] at hi
      exact root_dominatesAt hheap hwf i hisz m (by rw [hm]; rfl) x
        (by rw [hi]; rfl)
    · rw [if_neg hisz] at hi
      cases hi

/-! Correctness of repeated extraction (heapsort). -/

theorem extract_seq_spec :
    ∀ (k : Nat) (h : Heap α), h.Inv → h.size = k →
      ∃ out hf, extract_seq k h = some (out, hf) ∧ hf.size = 0 ∧
        out.Perm h.iter ∧
        List.Pairwise (fun a b => h.parent_child_relation.rel a b = true)
          out := by
  intro k
  induction k with
  | zero =>
    intro h hInv hsz
    refine ⟨[], h, rfl, hsz, ?_, List.Pairwise.nil⟩
    show List.Perm [] (h.elements.take h.size)
    rw [hsz]
    simp
  | succ k ih =>
    intro h hInv hsz
    have hpos : 0 < h.size := by omega
    obtain ⟨v, h', he, hfind, hInv', hsz', hrel', hperm'⟩ :=
      extract_spec_pos hInv hpos
    obtain ⟨out', hf, he2, hf0, hperm2, hpair2⟩ := ih h' hInv' (by omega)
    refine ⟨v :: out', hf, ?_, hf0, ?_, ?_⟩
    · unfold extract_seq
      simp only [he, he2]
    · exact (List.Perm.cons v hperm2).trans hperm'
    · rw [List.pairwise_cons]
      constructor
      · intro b hb
        obtain ⟨m, hmfind, _, hmdom⟩ := find_top_extremum hInv hpos
        rw [hfind] at hmfind
        injection hmfind with hmv
        have hbh : b ∈ h.iter := by
          have hb' : b ∈ h'.iter := (hperm2.mem_iff).mp hb
          exact (hperm'.mem_iff).mp (List.mem_cons_of_mem v hb')
        rw [← hmv] at hmdom
        exact hmdom b hbh
      · rw [← hrel']
        exact hpair2

/-! Conversions between the ordering policies and the order on `α`. -/

theorem Smaller_rel_iff (a b : α) :
    ParentChildRelation.Smaller.rel a b = true ↔ a ≤ b := by
  simp [ParentChildRelation.rel]

theorem Greater_rel_iff (a b : α) :
    ParentChildRelation.Greater.rel a b = true ↔ b ≤ a := by
  simp [ParentChildRelation.rel, ge_iff_le]

/-- The concrete min-heap of the spec's worked example, built by
`insert_all [3, 2, 5, 4, 7]` (internal layout `[2, 3, 5, 4, 7]`). -/
theorem min_example_insert_all :
    (Heap.new_min (α := Int) 5).insert_all [3, 2, 5, 4, 7] =
      some ⟨[2, 3, 5, 4, 7], 5, ParentChildRelation.Smaller⟩ := by
  simp [Heap.insert_all, Heap.insert, Heap.shift_up, shift_up_loop,
    heap_property_satisfied, swapIdx, Heap.new_min, Heap.new,
    ParentChildRelation.rel, parent_of]

/-- The concrete max-heap of the spec's worked example, built by
`insert_all [3, 2, 5, 4, 7]` (internal layout `[7, 5, 3, 2, 4]`). -/
theorem max_example_insert_all :
    (Heap.new_max (α := Int) 5).insert_all [3, 2, 5, 4, 7] =
      some ⟨[7, 5, 3, 2, 4], 5, ParentChildRelation.Greater⟩ := by
  simp [Heap.insert_all, Heap.insert, Heap.shift_up, shift_up_loop,
    heap_property_satisfied, swapIdx, Heap.new_max, Heap.new,
    ParentChildRelation.rel, parent_of]

/-- C1: for both ordering policies and every sequence of `insert`,
`insert_all` and `extract_top` calls starting from a freshly constructed
heap, the heap property holds when the sequence completes: for every index
`i` and child index `c ∈ {2i+1, 2i+2}` with `c < size`,
`dominates(elements[i], elements[c])` is true. -/
theorem C1_heap_property_invariant {h : Heap α} (hr : Reachable h) :
    ∀ i c, (c = 2 * i + 1 ∨ c = 2 * i + 2) → c < h.size →
      ∃ p q, h.elements[i]? = some p ∧ h.elements[c]? = some q ∧
        h.parent_child_relation.rel p q = true := by
  obtain ⟨hwf, hheap⟩ := reachable_inv hr
  intro i c hchild hcn
  have hic : i < c := by omega
  have hcl : c < h.elements.length := lt_of_lt_of_le (lt_of_lt_of_le hcn hwf)
    le_rfl
  have hil : i < h.elements.length := lt_trans hic hcl
  have hchild' : isChildOf c i := by
    unfold isChildOf left_child_of right_child_of
    omega
  refine ⟨_, _, List.getElem?_eq_getElem hil, List.getElem?_eq_getElem hcl, ?_⟩
  exact hheap i c hchild' hcn _ (by rw [List.getElem?_eq_getElem hil]; rfl) _
    (by rw [List.getElem?_eq_getElem hcl]; rfl)

/-- Witness for C1 at a concrete reachable heap: the min-heap built from
`[3, 2, 5, 4, 7]`. -/
theorem C1_heap_property_invariant_witness :
    ∃ h : Heap Int,
      (Heap.new_min 5).insert_all [3, 2, 5, 4, 7] = some h ∧
      ∀ i c, (c = 2 * i + 1 ∨ c = 2 * i + 2) → c < h.size →
        ∃ p q, h.elements[i]? = some p ∧ h.elements[c]? = some q ∧
          h.parent_child_relation.rel p q = true :=
  ⟨_, min_example_insert_all,
    C1_heap_property_invariant
      (Reachable.insert_all (Reachable.new_min 5) min_example_insert_all)⟩

/-- C3 counterexample: in the min-heap state `[5, 2, 1]` (size 3) both
children of the root violate the heap property, yet the repair's child
selection is a deterministic function of the state that always picks
index 2 and can never pick index 1 — so the swapped child is not chosen
uniformly at random among the violating children (index 1 would have to be
a possible outcome). -/
theorem C3_tiebreak_counterexample :
    heap_property_satisfied ParentChildRelation.Smaller
      ([5, 2, 1] : List Int) 0 1 = some false ∧
    heap_property_satisfied ParentChildRelation.Smaller
      ([5, 2, 1] : List Int) 0 2 = some false ∧
    shift_down_choose ParentChildRelation.Smaller
      ([5, 2, 1] : List Int) 3 0 = some 2 ∧
    ¬ (shift_down_choose ParentChildRelation.Smaller
        ([5, 2, 1] : List Int) 3 0 = some 1 ∧
       shift_down_choose ParentChildRelation.Smaller
        ([5, 2, 1] : List Int) 3 0 = some 2) := by
  decide

/-- C3 amended: the child picked by `shift_down` is deterministic: with
both children in the live region it is the child satisfying the relation
against its sibling (left on ties), and with only a left child it is that
child; no random source is consulted anywhere in the heap. -/
theorem C3_shift_down_choice_deterministic :
    ∀ (r : ParentChildRelation) (l : List α) (size p : Nat),
      (∀ a b, right_child_of p < size →
        l[left_child_of p]? = some a → l[right_child_of p]? = some b →
        shift_down_choose r l size p =
          some (if r.rel a b then left_child_of p else right_child_of p)) ∧
      (¬ right_child_of p < size →
        shift_down_choose r l size p = some (left_child_of p)) := by
  intro r l size p
  constructor
  · intro a b h2 ha hb
    unfold shift_down_choose heap_property_satisfied
    rw [if_pos h2, ha, hb]
  · intro h2
    unfold shift_down_choose
    rw [if_neg h2]

/-- Witness for the amended C3 theorem at the concrete state `[5, 2, 1]`. -/
theorem C3_shift_down_choice_deterministic_witness :
    shift_down_choose ParentChildRelation.Smaller ([5, 2, 1] : List Int) 3 0 =
      some (if ParentChildRelation.Smaller.rel (2 : Int) 1 then
        left_child_of 0 else right_child_of 0) :=
  (C3_shift_down_choice_deterministic ParentChildRelation.Smaller
    [5, 2, 1] 3 0).1 2 1 (by decide) rfl rfl

/-- C4: `find_top` on a heap whose `size` returned to `0` after an
`insert` and an `extract_top`.  The spec requires the "empty" signal
(`None`); the code reads `elements.first()` and returns the stale buffer
element `5`, while `size` is `0`. -/
theorem C4_find_top_stale_after_drain :
    (Heap.new_min (α := Int) 1).insert 5 =
      some ⟨[5], 1, ParentChildRelation.Smaller⟩ ∧
    (⟨[5], 1, ParentChildRelation.Smaller⟩ : Heap Int).extract_top =
      some (some 5, ⟨[5], 0, ParentChildRelation.Smaller⟩) ∧
    (⟨[5], 0, ParentChildRelation.Smaller⟩ : Heap Int).size = 0 ∧
    (⟨[5], 0, ParentChildRelation.Smaller⟩ : Heap Int).find_top = some 5 := by
  refine ⟨?_, ?_, rfl, rfl⟩
  · rfl
  · rfl

/-- C5: `binary_search` on the empty slice.  `hi` is initialized to
`slice.len() - 1`, which wraps to `2^64 - 1`; the first iteration then
indexes `slice[2^63 - 1]`, a panic — the function is not total and does not
match the standard library, which returns "not found" on empty input. -/
theorem C5_binary_search_empty_slice_panics :
    binary_search ([] : List Int) 0 = Except.error "index out of bounds" := by
  rfl

/-- C8: `binary_search` over `[1, 3, 3, 5, 7, 9]` finds target `3` (at
index 2) and reports target `4` as "not found", but panics for target `0`
(any target below the minimum): after `Ordering::Greater` at `mid = 0`,
`hi = 0usize.wrapping_sub(1) = 2^64 - 1`, and the next iteration indexes
out of bounds instead of returning "not found". -/
theorem C8_binary_search_below_min_panics :
    binary_search ([1, 3, 3, 5, 7, 9] : List Int) 3 = Except.ok (some 2) ∧
    binary_search ([1, 3, 3, 5, 7, 9] : List Int) 4 = Except.ok none ∧
    binary_search ([1, 3, 3, 5, 7, 9] : List Int) 0 =
      Except.error "index out of bounds" := by
  exact ⟨rfl, rfl, rfl⟩

/-- Generic heapsort run: build a heap from `l`, then extract `l.length`
times; the output is a permutation of `l` sorted by the policy's relation,
and any permuted input produces an output with the same properties. -/
theorem heapsort_generic (r : ParentChildRelation) (l : List α) (c : Nat) :
    ∃ h out hf, (Heap.new (α := α) c r).insert_all l = some h ∧
      extract_seq l.length h = some (out, hf) ∧
      out.Perm l ∧
      List.Pairwise (fun a b => r.rel a b = true) out := by
  obtain ⟨h, hh, hInv, hsz, hrel, hperm⟩ :=
    insert_all_spec l (Heap.new (α := α) c r) (new_inv c r)
  have h0size : (Heap.new (α := α) c r).size = 0 := rfl
  have h0iter : (Heap.new (α := α) c r).iter = [] := rfl
  have hrel' : h.parent_child_relation = r := hrel
  have hszl : h.size = l.length := by omega
  have hperm' : h.iter.Perm l := by
    rw [h0iter, List.append_nil] at hperm
    exact hperm
  obtain ⟨out, hf, he, hf0, hop, hpair⟩ := extract_seq_spec l.length h hInv hszl
  refine ⟨h, out, hf, hh, he, hop.trans hperm', ?_⟩
  rw [hrel'] at hpair
  exact hpair

/-- C2: inserting a list into a fresh heap and extracting until empty
yields the input multiset fully sorted — ascending for the min policy,
descending for the max policy — independently of the insertion order. -/
theorem C2_heapsort_sorted_output (l : List α) (c : Nat) :
    (∃ h out hf,
      (Heap.new_min (α := α) c).insert_all l = some h ∧
      extract_seq l.length h = some (out, hf) ∧
      out.Perm l ∧ List.Sorted (· ≤ ·) out ∧
      (∀ l₂ h₂ out₂ hf₂, l₂.Perm l →
        (Heap.new_min (α := α) c).insert_all l₂ = some h₂ →
        extract_seq l₂.length h₂ = some (out₂, hf₂) → out₂ = out)) ∧
    (∃ h out hf,
      (Heap.new_max (α := α) c).insert_all l = some h ∧
      extract_seq l.length h = some (out, hf) ∧
      out.Perm l ∧ List.Sorted (fun a b => b ≤ a) out ∧
      (∀ l₂ h₂ out₂ hf₂, l₂.Perm l →
        (Heap.new_max (α := α) c).insert_all l₂ = some h₂ →
        extract_seq l₂.length h₂ = some (out₂, hf₂) → out₂ = out)) := by
  constructor
  · obtain ⟨h, out, hf, hh, he, hperm, hpair⟩ :=
      heapsort_generic ParentChildRelation.Smaller l c
    have hsorted : List.Sorted (· ≤ ·) out :=
      hpair.imp (fun hab => (Smaller_rel_iff _ _).mp hab)
    refine ⟨h, out, hf, hh, he, hperm, hsorted, ?_⟩
    intro l₂ h₂ out₂ hf₂ hl₂ hh₂ he₂
    obtain ⟨h₂', out₂', hf₂', hh₂', he₂', hperm₂', hpair₂'⟩ :=
      heapsort_generic ParentChildRelation.Smaller l₂ c
    simp only [Heap.new_min] at hh₂
    rw [hh₂] at hh₂'
    injection hh₂' with hx
    rw [← hx] at he₂'
    rw [he₂] at he₂'
    injection he₂' with hy
    injection hy with hy1 hy2
    have hsorted₂ : List.Sorted (· ≤ ·) out₂ := by
      rw [hy1]
      exact hpair₂'.imp (fun hab => (Smaller_rel_iff _ _).mp hab)
    have hperm₂ : out₂.Perm out := by
      rw [hy1]
      exact (hperm₂'.trans hl₂).trans hperm.symm
    exact List.eq_of_perm_of_sorted hperm₂ hsorted₂ hsorted
  · obtain ⟨h, out, hf, hh, he, hperm, hpair⟩ :=
      heapsort_generic ParentChildRelation.Greater l c
    haveI : IsAntisymm α (fun a b => b ≤ a) :=
      ⟨fun a b h1 h2 => le_antisymm h2 h1⟩
    have hsorted : List.Sorted (fun a b => b ≤ a) out :=
      hpair.imp (fun hab => (Greater_rel_iff _ _).mp hab)
    refine ⟨h, out, hf, hh, he, hperm, hsorted, ?_⟩
    intro l₂ h₂ out₂ hf₂ hl₂ hh₂ he₂
    obtain ⟨h₂', out₂', hf₂', hh₂', he₂', hperm₂', hpair₂'⟩ :=
      heapsort_generic ParentChildRelation.Greater l₂ c
    simp only [Heap.new_max] at hh₂
    rw [hh₂] at hh₂'
    injection hh₂' with hx
    rw [← hx] at he₂'
    rw [he₂] at he₂'
    injection he₂' with hy
    injection hy with hy1 hy2
    have hsorted₂ : List.Sorted (fun a b => b ≤ a) out₂ := by
      rw [hy1]
      exact hpair₂'.imp (fun hab => (Greater_rel_iff _ _).mp hab)
    have hperm₂ : out₂.Perm out := by
      rw [hy1]
      exact (hperm₂'.trans hl₂).trans hperm.symm
    exact List.eq_of_perm_of_sorted hperm₂ hsorted₂ hsorted

/-- Witness for C2: the concrete min-heap example — inserting
`[3, 2, 5, 4, 7]` and extracting five times yields `[2, 3, 4, 5, 7]`. -/
theorem C2_heapsort_sorted_output_witness :
    ∃ h : Heap Int, ∃ out : List Int, ∃ hf : Heap Int,
      (Heap.new_min (α := Int) 5).insert_all [3, 2, 5, 4, 7] = some h ∧
      extract_seq 5 h = some (out, hf) ∧ out = [2, 3, 4, 5, 7] := by
  obtain ⟨⟨h, out, hf, hh, he, hperm, hsorted, _⟩, _⟩ :=
    C2_heapsort_sorted_output ([3, 2, 5, 4, 7] : List Int) 5
  refine ⟨h, out, hf, hh, he, ?_⟩
  have hperm' : out.Perm [2, 3, 4, 5, 7] := hperm.trans (by decide)
  exact List.eq_of_perm_of_sorted hperm' hsorted (by decide)

/-- C6: on every reachable non-empty heap, `find_top` returns a live
element dominating the whole live multiset: its minimum under the
min-on-top policy and its maximum under the max-on-top policy. -/
theorem C6_find_top_is_extremum {h : Heap α} (hr : Reachable h)
    (hpos : 0 < h.size) :
    ∃ m, h.find_top = some m ∧ m ∈ h.iter ∧
      (h.parent_child_relation = ParentChildRelation.Smaller →
        ∀ x ∈ h.iter, m ≤ x) ∧
      (h.parent_child_relation = ParentChildRelation.Greater →
        ∀ x ∈ h.iter, x ≤ m) := by
  obtain ⟨m, hfind, hmem, hdom⟩ := find_top_extremum (reachable_inv hr) hpos
  refine ⟨m, hfind, hmem, ?_, ?_⟩
  · intro hrel x hx
    have hd := hdom x hx
    rw [hrel] at hd
    exact (Smaller_rel_iff m x).mp hd
  · intro hrel x hx
    have hd := hdom x hx
    rw [hrel] at hd
    exact (Greater_rel_iff m x).mp hd

/-- Witness for C6: the min-heap built from `[3, 2, 5, 4, 7]` has
`find_top = some 2`, the max-heap has `find_top = some 7`. -/
theorem C6_find_top_is_extremum_witness :
    (∃ h : Heap Int,
      (Heap.new_min 5).insert_all [3, 2, 5, 4, 7] = some h ∧
      h.find_top = some 2 ∧
      ∃ m, h.find_top = some m ∧ m ∈ h.iter ∧
        (h.parent_child_relation = ParentChildRelation.Smaller →
          ∀ x ∈ h.iter, m ≤ x) ∧
        (h.parent_child_relation = ParentChildRelation.Greater →
          ∀ x ∈ h.iter, x ≤ m)) ∧
    (∃ h : Heap Int,
      (Heap.new_max 5).insert_all [3, 2, 5, 4, 7] = some h ∧
      h.find_top = some 7 ∧
      ∃ m, h.find_top = some m ∧ m ∈ h.iter ∧
        (h.parent_child_relation = ParentChildRelation.Smaller →
          ∀ x ∈ h.iter, m ≤ x) ∧
        (h.parent_child_relation = ParentChildRelation.Greater →
          ∀ x ∈ h.iter, x ≤ m)) := by
  constructor
  · exact ⟨_, min_example_insert_all, rfl,
      C6_find_top_is_extremum
        (Reachable.insert_all (Reachable.new_min 5) min_example_insert_all)
        (by decide)⟩
  · exact ⟨_, max_example_insert_all, rfl,
      C6_find_top_is_extremum
        (Reachable.insert_all (Reachable.new_max 5) max_example_insert_all)
        (by decide)⟩

/-- C7: on every reachable heap, extracting from an empty heap returns "no
value" and leaves the heap unchanged; extracting from a non-empty heap
returns the current top, decrements the occurrence count of that exact
value by one, and decrements `size` by one. -/
theorem C7_extract_top_conservation {h : Heap α} (hr : Reachable h) :
    (h.size = 0 → h.extract_top = some (none, h)) ∧
    (0 < h.size → ∃ v h', h.extract_top = some (some v, h') ∧
      h.find_top = some v ∧
      h'.occurrence_of (some v) + 1 = h.occurrence_of (some v) ∧
      h'.size + 1 = h.size) := by
  constructor
  · exact fun h0 => extract_spec_zero h0
  · intro hpos
    obtain ⟨v, h', he, hfind, hInv', hsz, hrelx, hperm⟩ :=
      extract_spec_pos (reachable_inv hr) hpos
    refine ⟨v, h', he, hfind, ?_, hsz⟩
    unfold Heap.occurrence_of
    have h1 := (hperm.filter (fun i => decide (i = v))).length_eq
    have h2 : (v :: h'.iter).filter (fun i => decide (i = v)) =
        v :: (h'.iter.filter (fun i => decide (i = v))) := by
      simp
    rw [h2, List.length_cons] at h1
    exact h1

/-- Witness for C7 at the concrete min-heap built from `[3, 2, 5, 4, 7]`. -/
theorem C7_extract_top_conservation_witness :
    ∃ h : Heap Int,
      (Heap.new_min 5).insert_all [3, 2, 5, 4, 7] = some h ∧
      ((h.size = 0 → h.extract_top = some (none, h)) ∧
       (0 < h.size → ∃ v h', h.extract_top = some (some v, h') ∧
         h.find_top = some v ∧
         h'.occurrence_of (some v) + 1 = h.occurrence_of (some v) ∧
         h'.size + 1 = h.size)) :=
  ⟨_, min_example_insert_all,
    C7_extract_top_conservation
      (Reachable.insert_all (Reachable.new_min 5) min_example_insert_all)⟩

/-- C10: every reachable heap keeps `size ≤ elements.len()`, and no public
mutating operation panics on it: `insert`, `insert_all` and `extract_top`
all return a value (the panic-free outcome `isSome`). -/
theorem C10_reachable_no_panic {h : Heap α} (hr : Reachable h) :
    h.size ≤ h.elements.length ∧
    (∀ v, (h.insert v).isSome) ∧
    (∀ l, (h.insert_all l).isSome) ∧
    (h.extract_top).isSome := by
  have hInv := reachable_inv hr
  refine ⟨hInv.1, ?_, ?_, ?_⟩
  · intro v
    obtain ⟨h', he, _⟩ := insert_spec hInv v
    rw [he]
    rfl
  · intro l
    obtain ⟨h', he, _⟩ := insert_all_spec l h hInv
    rw [he]
    rfl
  · by_cases h0 : h.size = 0
    · rw [extract_spec_zero h0]
      rfl
    · obtain ⟨v, h', he, _⟩ := extract_spec_pos hInv (by omega)
      rw [he]
      rfl

/-- Witness for C10 at the concrete min-heap built from `[3, 2, 5, 4, 7]`. -/
theorem C10_reachable_no_panic_witness :
    ∃ h : Heap Int,
      (Heap.new_min 5).insert_all [3, 2, 5, 4, 7] = some h ∧
      (h.size ≤ h.elements.length ∧
       (∀ v, (h.insert v).isSome) ∧
       (∀ l, (h.insert_all l).isSome) ∧
       (h.extract_top).isSome) :=
  ⟨_, min_example_insert_all,
    C10_reachable_no_panic
      (Reachable.insert_all (Reachable.new_min 5) min_example_insert_all)⟩

/-! Counting the generator outcomes behind `get_random`: the induced
distribution of `r % len` over a uniformly random 64-bit `r`. -/

theorem selectionCount_eq (len i : Nat) (hlen : 0 < len) (hi : i < len) :
    selectionCount len i = USIZE / len + if i < USIZE % len then 1 else 0 := by
  unfold selectionCount
  have hfe : (Finset.range USIZE).filter (fun r => r % len = i) =
      (Finset.range USIZE).filter (fun r => r ≡ i [MOD len]) := by
    apply Finset.filter_congr
    intro x _
    unfold Nat.ModEq
    rw [Nat.mod_eq_of_lt hi]
  rw [hfe, ← Nat.count_eq_card_filter_range]
  rw [Nat.count_modEq_card USIZE hlen i]
  rw [Nat.mod_eq_of_lt hi]

theorem outcomeCount_first : outcomeCount ([10, 20, 30] : List Int) 10 =
    selectionCount 3 0 := by
  unfold outcomeCount selectionCount
  refine congrArg Finset.card (Finset.filter_congr ?_)
  intro x _
  have hx : x % 3 = 0 ∨ x % 3 = 1 ∨ x % 3 = 2 := by omega
  rcases hx with hx | hx | hx <;> simp [get_random, hx]

theorem outcomeCount_second : outcomeCount ([10, 20, 30] : List Int) 20 =
    selectionCount 3 1 := by
  unfold outcomeCount selectionCount
  refine congrArg Finset.card (Finset.filter_congr ?_)
  intro x _
  have hx : x % 3 = 0 ∨ x % 3 = 1 ∨ x % 3 = 2 := by omega
  rcases hx with hx | hx | hx <;> simp [get_random, hx]

theorem usize_mod_three : USIZE % 3 = 1 := by decide

/-- C9 counterexample: with three candidates the selection
`rand::random::<usize>() % 3` is not uniform — among the `2^64` equally
likely generator outcomes, strictly more select the first candidate than
the second, so the two candidates are not returned with equal
probability. -/
theorem C9_get_random_not_uniform :
    outcomeCount ([10, 20, 30] : List Int) 10 ≠
      outcomeCount ([10, 20, 30] : List Int) 20 := by
  rw [outcomeCount_first, outcomeCount_second,
    selectionCount_eq 3 0 (by norm_num) (by norm_num),
    selectionCount_eq 3 1 (by norm_num) (by norm_num), usize_mod_three]
  simp

/-- C9 amended: `get_random` returns "no candidate" exactly on the empty
vector, and any returned value occurs in the vector; the selection is the
index `r % len` of a uniformly random 64-bit `r`, which over-selects low
indices whenever `len` does not divide `2^64` — for three candidates the
first is selected by exactly one more generator outcome than the second. -/
theorem C9_get_random_membership_and_bias :
    (∀ (v : List α) (r : Nat), get_random v r = none ↔ v = []) ∧
    (∀ (v : List α) (r : Nat) (x : α), get_random v r = some x → x ∈ v) ∧
    outcomeCount ([10, 20, 30] : List Int) 10 =
      outcomeCount ([10, 20, 30] : List Int) 20 + 1 := by
  refine ⟨?_, ?_, ?_⟩
  · intro v r
    unfold get_random
    by_cases hv : v.isEmpty
    · rw [if_pos hv]
      rw [List.isEmpty_iff] at hv
      simp [hv]
    · rw [if_neg hv]
      have hlen : 0 < v.length := by
        cases v with
        | nil => simp at hv
        | cons a t => simp
      constructor
      · intro hnone
        rw [List.getElem?_eq_getElem (Nat.mod_lt r hlen)] at hnone
        cases hnone
      · intro hv0
        subst hv0
        simp at hlen
  · intro v r x hx
    unfold get_random at hx
    split at hx
    · cases hx
    · exact List.getElem?_mem hx
  · rw [outcomeCount_first, outcomeCount_second,
      selectionCount_eq 3 0 (by norm_num) (by norm_num),
      selectionCount_eq 3 1 (by norm_num) (by norm_num), usize_mod_three]
    simp

/-- Witness for the amended C9 theorem: `get_random [1, 2, 3] 5` returns
`some 3`, which occurs in the vector. -/
theorem C9_get_random_membership_and_bias_witness : (3 : Int) ∈ [1, 2, 3] :=
  C9_get_random_membership_and_bias.2.1 [1, 2, 3] 5 3 rfl

end AlgorithmsExercise
